import Mathlib

/-!
Shallow embedding of the SDK discovery and search core of
`apple-sdk/src/lib.rs` (crate `apple-sdk`), together with theorems checking
the natural-language specification against it.

Paths are modelled as lists of path segments (`Path := List String`); the
filesystem is modelled as an oracle mapping a path to a directory-listing
result, mirroring the three outcomes `std::fs::read_dir` can have at each
call site (`NotFound`, another I/O error, or a listing whose individual
entries may themselves fail to be read).

Rust strings are modelled as Lean `String`; character classification
(`char::is_numeric`) is modelled for the ASCII range (`Char.isDigit`),
which coincides with the source behavior on all ASCII directory names
(every name appearing in the claims and in the crate's own tests).
-/

namespace AppleSdk

/-! ## String helpers mirroring the Rust standard library operations used -/

/-- Rust `str::split('.')` on the character list of a string.
Splitting the empty string yields `[[]]`, as in Rust. -/
def splitOnDot : List Char → List (List Char)
  | [] => [[]]
  | c :: rest =>
    if c = '.' then [] :: splitOnDot rest
    else
      match splitOnDot rest with
      | [] => [[c]]
      | p :: ps => (c :: p) :: ps

/-- Rust `str::split_once('.')`: split at the first dot, if any. -/
def splitOnceDot : List Char → Option (List Char × List Char)
  | [] => none
  | c :: rest =>
    if c = '.' then some ([], rest)
    else (splitOnceDot rest).map (fun p => (c :: p.1, p.2))

/-- Rust `str::rsplit_once('.')`: split at the last dot, if any. -/
def rsplitOnceDot (l : List Char) : Option (List Char × List Char) :=
  (splitOnceDot l.reverse).map (fun p => (p.2.reverse, p.1.reverse))

/-- Numeric value of a list of ASCII digits, most significant first. -/
def digitsToNat (l : List Char) : Nat :=
  l.foldl (fun acc c => acc * 10 + (c.toNat - 48)) 0

/-- Rust `u8::from_str`: an optional leading `+` sign followed by at least
one ASCII digit, whose value must fit in eight bits. -/
def parseU8 (l : List Char) : Option Nat :=
  let digits := match l with
    | '+' :: rest => rest
    | _ => l
  if digits = [] then none
  else if digits.all (fun c => c.isDigit) then
    if digitsToNat digits < 256 then some (digitsToNat digits) else none
  else none

/-- Rust `collect::<Result<Vec<_>, _>>` over `Option`: all-or-nothing map. -/
def mapOpt (f : α → Option β) : List α → Option (List β)
  | [] => some []
  | a :: as_ =>
    match f a with
    | none => none
    | some b => (mapOpt f as_).map (b :: ·)

/-! ## Paths and the filesystem oracle -/

/-- A filesystem path, as its list of segments. `PathBuf::join` appends a
segment; `Path::file_name` is the last segment. -/
abbrev Path := List String

/-- Rust `Path::file_name` (segment paths never end in `..` here). -/
def Path.fileName? (p : Path) : Option String := p.getLast?

/-- One entry yielded by a `read_dir` iterator: either an I/O failure while
reading the entry, or the entry's file name. -/
inductive DirEntry where
  | fail
  | name (s : String)
deriving DecidableEq

/-- Outcome of one `std::fs::read_dir` call: the `NotFound` error kind,
any other I/O error, or a listing. -/
inductive ReadDirResult where
  | notFound
  | otherError
  | ok (entries : List DirEntry)
deriving DecidableEq

/-- The filesystem, as a directory-listing oracle. -/
structure FileSystem where
  readDir : Path → ReadDirResult

/-! ## Error type (`enum Error`), restricted to the discovery core.
The plist/JSON variants belong to the excluded metadata-parsing
collaborator and cannot be produced by the embedded functions. -/

inductive Error where
  | xcodeSelectRun
  | xcodeSelectBadStatus
  | io
  | pathNotPlatform (p : Path)
  | pathNotSdk (p : Path)
  | versionParse (s : String)
deriving DecidableEq

/-! ## ApplePlatform -/

inductive ApplePlatform where
  | appleTvOs
  | appleTvSimulator
  | driverKit
  | iPhoneOs
  | iPhoneSimulator
  | macOsX
  | watchOs
  | watchSimulator
  | unknown (s : String)
deriving DecidableEq

namespace ApplePlatform

/-- Rust `ApplePlatform::from_str`; total, with the `Unknown` fallback
(the Rust impl returns `Ok` in every arm). -/
def from_str (s : String) : ApplePlatform :=
  match s with
  | "AppleTVOS" => .appleTvOs
  | "AppleTVSimulator" => .appleTvSimulator
  | "DriverKit" => .driverKit
  | "iPhoneOS" => .iPhoneOs
  | "iPhoneSimulator" => .iPhoneSimulator
  | "MacOSX" => .macOsX
  | "WatchOS" => .watchOs
  | "WatchSimulator" => .watchSimulator
  | v => .unknown v

/-- Rust `ApplePlatform::filesystem_name`. -/
def filesystem_name : ApplePlatform → String
  | .appleTvOs => "AppleTVOS"
  | .appleTvSimulator => "AppleTVSimulator"
  | .driverKit => "DriverKit"
  | .iPhoneOs => "iPhoneOS"
  | .iPhoneSimulator => "iPhoneSimulator"
  | .macOsX => "MacOSX"
  | .watchOs => "WatchOS"
  | .watchSimulator => "WatchSimulator"
  | .unknown v => v

/-- Rust `PartialEq for ApplePlatform`: equality of filesystem names. -/
def beq (a b : ApplePlatform) : Bool :=
  a.filesystem_name = b.filesystem_name

/-- Rust `ApplePlatform::from_platform_path` (on the file name of the
path): split at the first `.`; the trailing part must be the literal
`platform`. -/
def from_platform_path (p : Path) : Except Error ApplePlatform :=
  match p.fileName? with
  | none => .error (.pathNotPlatform p)
  | some s =>
    match splitOnceDot s.toList with
    | none => .error (.pathNotPlatform p)
    | some (name, plat) =>
      if plat = "platform".toList then .ok (from_str (String.mk name))
      else .error (.pathNotPlatform p)

end ApplePlatform

/-! ## SdkVersion -/

/-- Wrapper around a raw version string; not validated at construction. -/
structure SdkVersion where
  value : String
deriving DecidableEq

namespace SdkVersion

/-- Rust `SdkVersion::normalized_version`: split on `.`, parse each part
as a `u8`, accept 1-3 parts right-padded with zeros. -/
def normalized_version (v : SdkVersion) : Except Error (Nat × Nat × Nat) :=
  match mapOpt parseU8 (splitOnDot v.value.toList) with
  | none => .error (.versionParse v.value)
  | some ints =>
    match ints with
    | [a] => .ok (a, 0, 0)
    | [a, b] => .ok (a, b, 0)
    | [a, b, c] => .ok (a, b, c)
    | _ => .error (.versionParse v.value)

/-- Rust `SdkVersion::semantic_version`. -/
def semantic_version (v : SdkVersion) : Except Error String :=
  (v.normalized_version).map (fun t =>
    toString t.1 ++ "." ++ toString t.2.1 ++ "." ++ toString t.2.2)

/-- The triple used for ordering: `normalized_version().unwrap_or((0,0,0))`. -/
def normOrZero (v : SdkVersion) : Nat × Nat × Nat :=
  match v.normalized_version with
  | .ok t => t
  | .error _ => (0, 0, 0)

/-- Lexicographic comparison of triples, as Rust tuple `Ord`. -/
def cmpTriple (a b : Nat × Nat × Nat) : Ordering :=
  (compare a.1 b.1).then ((compare a.2.1 b.2.1).then (compare a.2.2 b.2.2))

/-- Rust `Ord for SdkVersion` (via `PartialOrd`, which substitutes
`(0,0,0)` for an unparseable side). -/
def cmp (a b : SdkVersion) : Ordering :=
  cmpTriple a.normOrZero b.normOrZero

end SdkVersion

/-! ## SdkPath -/

/-- Metadata parsed from an SDK directory path. -/
structure SdkPath where
  path : Path
  platform : ApplePlatform
  version : Option SdkVersion
deriving DecidableEq

namespace SdkPath

/-- Rust `SdkPath::from_path`: take the file name, split at the last `.`,
require the literal `sdk` suffix, then split the remaining stem at its
first decimal digit into platform name and optional version. -/
def from_path (path : Path) : Except Error SdkPath :=
  match path.fileName? with
  | none => .error (.pathNotSdk path)
  | some s =>
    match rsplitOnceDot s.toList with
    | none => .error (.pathNotSdk path)
    | some (stem, sdk) =>
      if sdk = "sdk".toList then
        match stem.findIdx? (fun c => c.isDigit) with
        | some i =>
          .ok { path := path
                platform := ApplePlatform.from_str (String.mk (stem.take i))
                version := some ⟨String.mk (stem.drop i)⟩ }
        | none =>
          .ok { path := path
                platform := ApplePlatform.from_str (String.mk stem)
                version := none }
      else .error (.pathNotSdk path)

end SdkPath

/-! ## Path ordering (Rust `PathBuf`/`str` lexicographic comparison) -/

/-- Lexicographic `≤` on character lists (Rust `str` ordering; UTF-8 byte
order coincides with codepoint order). -/
def listCharLe : List Char → List Char → Bool
  | [], _ => true
  | _ :: _, [] => false
  | a :: as_, b :: bs =>
    if a = b then listCharLe as_ bs else decide (a < b)

/-- Lexicographic `≤` on strings. -/
def strLe (a b : String) : Bool := listCharLe a.toList b.toList

/-- Lexicographic `≤` on paths, component-wise (Rust `PathBuf` ordering). -/
def pathLe : Path → Path → Bool
  | [], _ => true
  | _ :: _, [] => false
  | a :: as_, b :: bs =>
    if a = b then pathLe as_ bs else strLe a b

/-- Insert into a sorted list, before the first element not below `x`.
Together with `sortLe` this is a stable sort: Rust `slice::sort`/`sort_by`
is stable, and a stable sort's output is uniquely determined by the input
order and the (total preorder) comparator, so any stable sorting
algorithm models it. -/
def insertLe (le : α → α → Bool) (x : α) : List α → List α
  | [] => [x]
  | y :: ys => if le x y then x :: y :: ys else y :: insertLe le x ys

/-- Stable insertion sort modelling Rust `slice::sort`/`sort_by`. -/
def sortLe (le : α → α → Bool) : List α → List α
  | [] => []
  | x :: xs => insertLe le x (sortLe le xs)

/-! ## ApplePlatformDirectory -/

/-- A `*.platform` directory: its path and the platform parsed from it. -/
structure ApplePlatformDirectory where
  path : Path
  platform : ApplePlatform
deriving DecidableEq

namespace ApplePlatformDirectory

/-- Rust `ApplePlatformDirectory::from_path`. -/
def from_path (path : Path) : Except Error ApplePlatformDirectory :=
  (ApplePlatform.from_platform_path path).map
    (fun platform => { path := path, platform := platform })

/-- Rust `ApplePlatformDirectory::sdks_path`. -/
def sdks_path (d : ApplePlatformDirectory) : Path :=
  d.path ++ ["Developer", "SDKs"]

/-- Loop body of `find_in_developer_directory`: an entry error aborts with
`Error::Io`; a child that fails to parse as a platform directory is
skipped. -/
def collectPlatformDirs (base : Path) :
    List DirEntry → Except Error (List ApplePlatformDirectory)
  | [] => .ok []
  | .fail :: _ => .error .io
  | .name n :: rest =>
    match from_path (base ++ [n]) with
    | .ok pd => (collectPlatformDirs base rest).map (pd :: ·)
    | .error _ => collectPlatformDirs base rest

/-- Rust `ApplePlatformDirectory::find_in_developer_directory`: list
`<dev>/Platforms`; `NotFound` yields an empty result; the surviving
children are re-sorted by path. -/
def find_in_developer_directory (fs : FileSystem) (developer_dir : Path) :
    Except Error (List ApplePlatformDirectory) :=
  let platforms_path := developer_dir ++ ["Platforms"]
  match fs.readDir platforms_path with
  | .notFound => .ok []
  | .otherError => .error .io
  | .ok entries =>
    (collectPlatformDirs platforms_path entries).map
      (sortLe (fun a b => pathLe a.path b.path))

end ApplePlatformDirectory

/-! ## find_xcode_apps -/

/-- The filter in `find_xcode_apps`: Rust
`file_name.starts_with("Xcode") && file_name.ends_with(".app")`. -/
def matchesXcodeApp (name : String) : Bool :=
  ("Xcode".toList.isPrefixOf name.toList)
    && (".app".toList.reverse.isPrefixOf name.toList.reverse)

/-- Whether a path's file name is the literal `Xcode.app`. -/
def isXcodeApp (p : Path) : Bool := p.fileName? == some "Xcode.app"

/-- The `sort_by` comparator of `find_xcode_apps`, as a boolean `≤`:
`Xcode.app` compares less than everything (including itself), everything
compares greater than `Xcode.app`, and otherwise paths compare
lexicographically. -/
def xcodeLe (a b : Path) : Bool :=
  if isXcodeApp a then true
  else if isXcodeApp b then false
  else pathLe a b

/-- Loop body of `find_xcode_apps`: an entry error aborts with
`Error::Io`; a name is kept when it matches `Xcode*.app`. -/
def collectXcodeApps (base : Path) : List DirEntry → Except Error (List Path)
  | [] => .ok []
  | .fail :: _ => .error .io
  | .name n :: rest =>
    (collectXcodeApps base rest).map
      (fun r => if matchesXcodeApp n then (base ++ [n]) :: r else r)

/-- Rust `find_xcode_apps`: a missing applications directory yields an
empty result; matches are sorted with `Xcode.app` forced first. -/
def find_xcode_apps (fs : FileSystem) (applications_dir : Path) :
    Except Error (List Path) :=
  match fs.readDir applications_dir with
  | .notFound => .ok []
  | .otherError => .error .io
  | .ok entries =>
    (collectXcodeApps applications_dir entries).map (sortLe xcodeLe)

/-! ## AppleSdk trait: the provided `find_sdks_in_directory`.
The trait is modelled generically: an implementation is a type `SDK`
together with its `from_directory` constructor and `version` accessor. -/

/-- Loop body of `find_sdks_in_directory`: an entry error aborts with
`Error::Io`; an `Error::PathNotSdk` result from `from_directory` is
swallowed; any other error aborts and propagates. -/
def collectSdks (fromDir : Path → Except Error SDK) (base : Path) :
    List DirEntry → Except Error (List SDK)
  | [] => .ok []
  | .fail :: _ => .error .io
  | .name n :: rest =>
    match fromDir (base ++ [n]) with
    | .ok sdk => (collectSdks fromDir base rest).map (sdk :: ·)
    | .error (.pathNotSdk _) => collectSdks fromDir base rest
    | .error e => .error e

/-- Rust `AppleSdk::find_sdks_in_directory`: a missing root yields an
empty result, not an error. -/
def find_sdks_in_directory (fromDir : Path → Except Error SDK)
    (fs : FileSystem) (root : Path) : Except Error (List SDK) :=
  match fs.readDir root with
  | .notFound => .ok []
  | .otherError => .error .io
  | .ok entries => collectSdks fromDir root entries

/-! ## SearchDirectory -/

/-- A root candidate: a developer directory (needs expansion) or a direct
SDKs directory (used as-is). -/
inductive SearchDirectory where
  | developer (p : Path)
  | sdks (p : Path)
deriving DecidableEq

namespace SearchDirectory

/-- Rust `AsRef<Path> for SearchDirectory`. -/
def as_path : SearchDirectory → Path
  | .developer p => p
  | .sdks p => p

/-- Rust `PartialEq for SearchDirectory`: compares the paths only (both
variants project to their path via `AsRef<Path>`). -/
def beq (a b : SearchDirectory) : Bool := a.as_path = b.as_path

/-- Rust `SearchDirectory::resolve_sdks_dirs`: a developer directory
expands to the SDKs directories of its platform directories (filtered by
the wanted platform when one is set); an SDKs directory resolves to
itself. -/
def resolve_sdks_dirs (sd : SearchDirectory) (fs : FileSystem)
    (platform : Option ApplePlatform) : Except Error (List Path) :=
  match sd with
  | .developer developer_dir =>
    (ApplePlatformDirectory.find_in_developer_directory fs developer_dir).map
      (fun pds => pds.filterMap (fun platform_dir =>
        match platform with
        | some wanted_platform =>
          if platform_dir.platform.beq wanted_platform then
            some platform_dir.sdks_path
          else none
        | none => some platform_dir.sdks_path))
  | .sdks path => .ok [path]

end SearchDirectory

/-! ## SdkSearch -/

/-- Environment consumed by `SdkSearch::search`: the filesystem plus the
outcomes of the root locator functions it invokes
(`default_developer_directory`, `command_line_tools_sdks_directory`,
`default_xcode_developer_directory`,
`find_system_xcode_developer_directories`). -/
structure SearchEnv where
  fs : FileSystem
  developerDir : Except Unit Path
  commandLineToolsSdksDir : Option Path
  defaultXcodeDeveloperDir : Option Path
  systemXcodeDeveloperDirs : Except Unit (List Path)

/-- Rust `struct SdkSearch`. -/
structure SdkSearch where
  search_developer_dir : Bool
  search_command_line_tools_sdks : Bool
  search_default_system_xcode : Bool
  search_system_xcodes : Bool
  search_additional_developer_dirs : List Path
  search_additional_sdks_dirs : List Path
  platform : Option ApplePlatform
  minimum_version : Option SdkVersion
  maximum_version : Option SdkVersion

namespace SdkSearch

/-- Rust `Default for SdkSearch`. -/
def default : SdkSearch where
  search_developer_dir := true
  search_command_line_tools_sdks := false
  search_default_system_xcode := false
  search_system_xcodes := false
  search_additional_developer_dirs := []
  search_additional_sdks_dirs := []
  platform := none
  minimum_version := none
  maximum_version := none

/-- Rust `SdkSearch::filter_sdk`: version-bound filtering only. An SDK
whose version is below a set minimum bound, above a set maximum bound, or
absent while either bound is set, is rejected. -/
def filter_sdk (cfg : SdkSearch) (ver : SDK → Option SdkVersion)
    (sdk : SDK) : Bool :=
  (match cfg.minimum_version with
   | some min_version =>
     match ver sdk with
     | some sdk_version => !(SdkVersion.cmp sdk_version min_version == .lt)
     | none => false
   | none => true)
  &&
  (match cfg.maximum_version with
   | some max_version =>
     match ver sdk with
     | some sdk_version => !(SdkVersion.cmp sdk_version max_version == .gt)
     | none => false
   | none => true)

/-- The `append_dir` closure in `SdkSearch::search`: push unless an equal
(by path) directory is already present. -/
def appendDir (dirs : List SearchDirectory) (v : SearchDirectory) :
    List SearchDirectory :=
  if dirs.any (fun d => d.beq v) then dirs else dirs ++ [v]

/-- Root collection phase of `SdkSearch::search`, in its fixed precedence
order; locator failures are silently skipped. -/
def buildSearchDirs (cfg : SdkSearch) (env : SearchEnv) :
    List SearchDirectory :=
  let d1 :=
    if cfg.search_developer_dir then
      match env.developerDir with
      | .ok path => appendDir [] (.developer path)
      | .error _ => []
    else []
  let d2 :=
    if cfg.search_command_line_tools_sdks then
      match env.commandLineToolsSdksDir with
      | some path => appendDir d1 (.sdks path)
      | none => d1
    else d1
  let d3 :=
    if cfg.search_default_system_xcode then
      match env.defaultXcodeDeveloperDir with
      | some path => appendDir d2 (.developer path)
      | none => d2
    else d2
  let d4 :=
    if cfg.search_system_xcodes then
      match env.systemXcodeDeveloperDirs with
      | .ok paths => paths.foldl (fun acc p => appendDir acc (.developer p)) d3
      | .error _ => d3
    else d3
  let d5 := cfg.search_additional_developer_dirs.foldl
    (fun acc p => appendDir acc (.developer p)) d4
  cfg.search_additional_sdks_dirs.foldl
    (fun acc p => appendDir acc (.sdks p)) d5

/-- Inner loop of `SdkSearch::search` over the resolved SDK directories of
one root: skip a directory already searched, mark it searched, enumerate
its SDKs and keep those passing the filter. Returns the kept SDKs and the
updated searched set. -/
def processSdkDirs (fromDir : Path → Except Error SDK) (fs : FileSystem)
    (filterFn : SDK → Bool) :
    List Path → List Path → Except Error (List SDK × List Path)
  | [], searched => .ok ([], searched)
  | dir :: dirs, searched =>
    if searched.contains dir then
      processSdkDirs fromDir fs filterFn dirs searched
    else
      match find_sdks_in_directory fromDir fs dir with
      | .error e => .error e
      | .ok sdks =>
        (processSdkDirs fromDir fs filterFn dirs (dir :: searched)).map
          (fun r => (sdks.filter filterFn ++ r.1, r.2))

/-- Outer loop of `SdkSearch::search` over the collected roots, threading
the searched-directory set across roots. -/
def searchLoop (fromDir : Path → Except Error SDK) (fs : FileSystem)
    (filterFn : SDK → Bool) (platform : Option ApplePlatform) :
    List SearchDirectory → List Path → Except Error (List SDK)
  | [], _ => .ok []
  | d :: ds, searched =>
    match d.resolve_sdks_dirs fs platform with
    | .error e => .error e
    | .ok sdkDirs =>
      match processSdkDirs fromDir fs filterFn sdkDirs searched with
      | .error e => .error e
      | .ok (sdks, searched2) =>
        (searchLoop fromDir fs filterFn platform ds searched2).map (sdks ++ ·)

/-- Rust `SdkSearch::search`, generic over the SDK implementation
(`fromDir` is the implementation's `from_directory`, `ver` its `version`
accessor). -/
def search (cfg : SdkSearch) (env : SearchEnv)
    (fromDir : Path → Except Error SDK) (ver : SDK → Option SdkVersion) :
    Except Error (List SDK) :=
  searchLoop fromDir env.fs (cfg.filter_sdk ver) cfg.platform
    (buildSearchDirs cfg env) []

end SdkSearch

/-! ## Auxiliary definitions used by the verification statements -/

/-- Success value of an `Except`, if any. -/
def exceptOk? : Except ε α → Option α
  | .ok a => some a
  | .error _ => none

/-- Whether an error is the not-an-SDK signal. -/
def isPathNotSdkError : Error → Bool
  | .pathNotSdk _ => true
  | _ => false

/-- Whether a result is a success or the swallowed not-an-SDK signal. -/
def okOrNotSdk : Except Error α → Bool
  | .ok _ => true
  | .error e => isPathNotSdkError e

/-- Version-bound acceptance exactly as the specification words it: an SDK
with a present version is kept precisely when it is not below a set
minimum and not above a set maximum; an SDK with no version is kept
precisely when neither bound is set. -/
def keptPerSpec (minv maxv v? : Option SdkVersion) : Bool :=
  match v? with
  | some v =>
    (match minv with
     | some m => !(SdkVersion.cmp v m == .lt)
     | none => true)
    && (match maxv with
        | some m => !(SdkVersion.cmp v m == .gt)
        | none => true)
  | none => minv == none && maxv == none

/-- Shape test from the specification: at most three dot-separated
components (a split is never empty), each parsing as an unsigned 8-bit
integer. -/
def goodVersionShape (v : SdkVersion) : Bool :=
  decide ((splitOnDot v.value.toList).length ≤ 3)
    && (splitOnDot v.value.toList).all (fun p => (parseU8 p).isSome)

/-- The parsed numeric components of a version string. -/
def parsedComponents (v : SdkVersion) : List Nat :=
  (splitOnDot v.value.toList).filterMap parseU8

/-- Right-pad 1-3 components with zeros, as the specification words it. -/
def padTriple : List Nat → Nat × Nat × Nat
  | [a] => (a, 0, 0)
  | [a, b] => (a, b, 0)
  | [a, b, c] => (a, b, c)
  | _ => (0, 0, 0)

/-- The canonical zero-padded `X.Y.Z` rendering of a triple. -/
def tripleString (t : Nat × Nat × Nat) : String :=
  toString t.1 ++ "." ++ toString t.2.1 ++ "." ++ toString t.2.2

/-- Whether a name ends in the literal `.sdk`. -/
def endsWithDotSdk (s : String) : Bool :=
  ".sdk".toList.reverse.isPrefixOf s.toList.reverse

/-- The sortedness relation the specification describes for
`find_xcode_apps` results: the entry named `Xcode.app` precedes
everything, and any two other entries are in lexicographic order. -/
def xcodeOrder (a b : Path) : Prop :=
  isXcodeApp a = true ∨ (isXcodeApp b = false ∧ pathLe a b = true)

/-! ## Concrete instances used by counterexamples and witnesses -/

/-- A filesystem with no directories at all. -/
def fsNone : FileSystem := ⟨fun _ => .notFound⟩

/-- An environment in which every root locator comes up empty. -/
def envNone : SearchEnv := ⟨fsNone, .error (), none, none, .error ()⟩

/-- A search registering the same path once as a developer directory and
once as an SDKs directory. -/
def cfgSamePathRoots : SdkSearch :=
  { SdkSearch.default with
    search_developer_dir := false
    search_additional_developer_dirs := [["p"]]
    search_additional_sdks_dirs := [["p"]] }

/-- A filesystem with a single SDKs directory holding one SDK. -/
def fsOneSdk : FileSystem :=
  ⟨fun p => if p = [("sdks" : String)] then .ok [.name "MacOSX12.sdk"]
   else .notFound⟩

/-- Environment over `fsOneSdk` with no locatable roots. -/
def envOneSdk : SearchEnv := ⟨fsOneSdk, .error (), none, none, .error ()⟩

/-- A search of that directory whose minimum bound is malformed. -/
def cfgMalformedMin : SdkSearch :=
  { SdkSearch.default with
    search_developer_dir := false
    search_additional_sdks_dirs := [["sdks"]]
    minimum_version := some ⟨"not-a-version"⟩ }

/-- A filesystem whose one SDKs directory holds an SDK of a platform other
than the one a search filters on. -/
def fsCross : FileSystem :=
  ⟨fun p => if p = [("xsdks" : String)] then .ok [.name "iPhoneOS16.sdk"]
   else .notFound⟩

/-- Environment over `fsCross` with no locatable roots. -/
def envCross : SearchEnv := ⟨fsCross, .error (), none, none, .error ()⟩

/-- A macOS-filtered search over a direct SDKs directory. -/
def cfgCross : SdkSearch :=
  { SdkSearch.default with
    search_developer_dir := false
    search_additional_sdks_dirs := [["xsdks"]]
    platform := some .macOsX }

/-- A search over exactly one direct SDKs directory, with a platform
filter set and arbitrary version bounds. -/
def cfgSdksOnly (p : Path) (pl : ApplePlatform)
    (mi ma : Option SdkVersion) : SdkSearch :=
  { SdkSearch.default with
    search_developer_dir := false
    search_additional_sdks_dirs := [p]
    platform := some pl
    minimum_version := mi
    maximum_version := ma }

/-- An applications directory listing with the default application not
first. -/
def fsApps : FileSystem :=
  ⟨fun p => if p = [("Applications" : String)] then
    .ok [.name "XcodeBeta.app", .name "Xcode.app", .name "Xcode-rc1.app"]
   else .notFound⟩

/-- An SDKs directory with a non-SDK child between two SDKs. -/
def fsSdksMix : FileSystem :=
  ⟨fun p => if p = [("r" : String)] then
    .ok [.name "MacOSX12.sdk", .name "junk", .name "MacOSX13.sdk"]
   else .notFound⟩

/-- An SDKs directory whose second child fails hard. -/
def fsSdksBoom : FileSystem :=
  ⟨fun p => if p = [("r" : String)] then
    .ok [.name "MacOSX12.sdk", .name "boom"]
   else .notFound⟩

/-- A `from_directory` implementation failing hard on one path and
otherwise behaving like path parsing. -/
def fromDirHardFail : Path → Except Error SdkPath :=
  fun p => if p = [("r" : String), "boom"] then .error .io
  else SdkPath.from_path p

end AppleSdk

deriving instance DecidableEq for Except

namespace AppleSdk

/-! ## Helper lemmas: version ordering -/

theorem normOrZero_of_not_isOk {v : SdkVersion}
    (h : (v.normalized_version).isOk = false) : v.normOrZero = (0, 0, 0) := by
  unfold SdkVersion.normOrZero
  cases hv : v.normalized_version with
  | ok t => rw [hv] at h; simp [Except.isOk, Except.toBool] at h
  | error e => rfl

theorem compare_zero_ne_gt (n : Nat) : compare 0 n ≠ .gt := by
  simp [Nat.compare_eq_gt]

theorem cmpTriple_zero_ne_gt (t : Nat × Nat × Nat) :
    SdkVersion.cmpTriple (0, 0, 0) t ≠ .gt := by
  unfold SdkVersion.cmpTriple
  cases h1 : compare 0 t.1 with
  | gt => exact absurd h1 (compare_zero_ne_gt _)
  | lt => simp [Ordering.then]
  | eq =>
    cases h2 : compare 0 t.2.1 with
    | gt => exact absurd h2 (compare_zero_ne_gt _)
    | lt => simp [Ordering.then]
    | eq =>
      cases h3 : compare 0 t.2.2 with
      | gt => exact absurd h3 (compare_zero_ne_gt _)
      | lt => simp [Ordering.then]
      | eq => simp [Ordering.then]

/-- C4: SdkVersion ordering substitutes (0,0,0) for any side whose string
fails to parse and compares lexicographically; hence an unparseable
version never compares greater than any version, and two unparseable
versions compare Equal. -/
theorem sdkVersion_unparseable_cmp (a b : SdkVersion)
    (ha : (a.normalized_version).isOk = false) :
    a.normOrZero = (0, 0, 0) ∧
      SdkVersion.cmp a b ≠ .gt ∧
      ((b.normalized_version).isOk = false → SdkVersion.cmp a b = .eq) := by
  refine ⟨normOrZero_of_not_isOk ha, ?_, ?_⟩
  · unfold SdkVersion.cmp
    rw [normOrZero_of_not_isOk ha]
    exact cmpTriple_zero_ne_gt _
  · intro hb
    unfold SdkVersion.cmp
    rw [normOrZero_of_not_isOk ha, normOrZero_of_not_isOk hb]
    rfl

/-- Witness for C4 at the unparseable pair ("foo", "bar"). -/
theorem sdkVersion_unparseable_cmp_witness :
    ((SdkVersion.mk "foo").normalized_version).isOk = false ∧
      ((SdkVersion.mk "bar").normalized_version).isOk = false ∧
      SdkVersion.cmp ⟨"foo"⟩ ⟨"bar"⟩ ≠ .gt ∧
      SdkVersion.cmp ⟨"foo"⟩ ⟨"bar"⟩ = .eq := by
  refine ⟨by decide, by decide, ?_, ?_⟩
  · exact (sdkVersion_unparseable_cmp ⟨"foo"⟩ ⟨"bar"⟩ (by decide)).2.1
  · exact (sdkVersion_unparseable_cmp ⟨"foo"⟩ ⟨"bar"⟩ (by decide)).2.2 (by decide)

theorem filter_sdk_spec_eq {SDK : Type} (cfg : SdkSearch)
    (ver : SDK → Option SdkVersion) (sdk : SDK) :
    cfg.filter_sdk ver sdk =
      keptPerSpec cfg.minimum_version cfg.maximum_version (ver sdk) := by
  unfold SdkSearch.filter_sdk keptPerSpec
  cases cfg.minimum_version <;> cases cfg.maximum_version <;> cases ver sdk <;> rfl

/-- C3: an SDK with a present version is kept by filter_sdk if and only if
it is >= the minimum bound whenever set and <= the maximum bound whenever
set; an SDK with no version is rejected whenever either bound is set and
kept when neither is. -/
theorem filter_sdk_eq_keptPerSpec {SDK : Type} (cfg : SdkSearch)
    (ver : SDK → Option SdkVersion) (sdk : SDK) :
    cfg.filter_sdk ver sdk =
      keptPerSpec cfg.minimum_version cfg.maximum_version (ver sdk) :=
  filter_sdk_spec_eq cfg ver sdk

end AppleSdk

namespace AppleSdk

/-- C2 counterexample: registering the same path once as a developer
directory and once as an SDKs directory retains only the first root — the
second, of a different kind, is suppressed, so deduplication is not keyed
by path AND kind. -/
theorem append_dir_kind_counterexample :
    SdkSearch.buildSearchDirs cfgSamePathRoots envNone =
      [SearchDirectory.developer ["p"]] := by decide

/-- C2 amended: duplicate root entries are suppressed at insertion time
keyed by path alone (the kind is ignored), preserving first-seen order: a
fresh path is appended at the end, and a root whose path equals an already
inserted root's path is dropped even when the kinds differ. -/
theorem append_dir_dedup_by_path (dirs : List SearchDirectory)
    (d d2 : SearchDirectory) :
    (dirs.any (fun x => x.beq d) = false →
      SdkSearch.appendDir dirs d = dirs ++ [d]) ∧
    (d.as_path = d2.as_path →
      SdkSearch.appendDir (SdkSearch.appendDir dirs d) d2 =
        SdkSearch.appendDir dirs d) := by
  constructor
  · intro h
    unfold SdkSearch.appendDir
    rw [h]
    rfl
  · intro hpath
    unfold SdkSearch.appendDir
    by_cases h : dirs.any (fun x => x.beq d) = true
    · rw [if_pos h]
      have h2 : dirs.any (fun x => x.beq d2) = true := by
        rcases List.any_eq_true.mp h with ⟨x, hx, hbeq⟩
        refine List.any_eq_true.mpr ⟨x, hx, ?_⟩
        unfold SearchDirectory.beq at hbeq ⊢
        simp only [decide_eq_true_eq] at hbeq ⊢
        rw [hbeq, hpath]
      rw [if_pos h2]
    · rw [if_neg h]
      have h2 : (dirs ++ [d]).any (fun x => x.beq d2) = true := by
        refine List.any_eq_true.mpr ⟨d, by simp, ?_⟩
        unfold SearchDirectory.beq
        simp only [decide_eq_true_eq]
        exact hpath
      rw [if_pos h2]

/-- Witness for the C2 amended claim: on an empty root list, a developer
root at path p is appended; an SDKs root at the same path p is then
suppressed. -/
theorem append_dir_dedup_by_path_witness :
    ([] : List SearchDirectory).any
        (fun x => x.beq (SearchDirectory.developer ["p"])) = false ∧
      (SearchDirectory.developer ["p"]).as_path =
        (SearchDirectory.sdks ["p"]).as_path ∧
      SdkSearch.appendDir [] (SearchDirectory.developer ["p"]) =
        [SearchDirectory.developer ["p"]] ∧
      SdkSearch.appendDir
          (SdkSearch.appendDir [] (SearchDirectory.developer ["p"]))
          (SearchDirectory.sdks ["p"]) =
        SdkSearch.appendDir [] (SearchDirectory.developer ["p"]) := by
  refine ⟨by decide, by decide, ?_, ?_⟩
  · exact Eq.trans
      ((append_dir_dedup_by_path [] (SearchDirectory.developer ["p"])
        (SearchDirectory.sdks ["p"])).1 (by decide)) (by decide)
  · exact (append_dir_dedup_by_path [] (SearchDirectory.developer ["p"])
      (SearchDirectory.sdks ["p"])).2 (by decide)

end AppleSdk

namespace AppleSdk

/-- C1 counterexample: a search whose minimum bound wraps the malformed
version string "not-a-version" does not abort; it completes and returns
the one discovered SDK. -/
theorem search_malformed_bound_counterexample :
    SdkSearch.search cfgMalformedMin envOneSdk SdkPath.from_path
        SdkPath.version =
      .ok [⟨["sdks", "MacOSX12.sdk"], .macOsX, some ⟨"12"⟩⟩] := by decide

theorem cmp_eq_cmp_zero_of_malformed (v m : SdkVersion)
    (h : (m.normalized_version).isOk = false) :
    SdkVersion.cmp v m = SdkVersion.cmp v ⟨"0"⟩ := by
  unfold SdkVersion.cmp
  rw [normOrZero_of_not_isOk h,
    show SdkVersion.normOrZero ⟨"0"⟩ = (0, 0, 0) from by decide]

theorem filter_sdk_min_zero {SDK : Type} (cfg : SdkSearch)
    (ver : SDK → Option SdkVersion) (m : SdkVersion)
    (hm : cfg.minimum_version = some m)
    (h : (m.normalized_version).isOk = false) :
    cfg.filter_sdk ver =
      ({cfg with minimum_version := some ⟨"0"⟩} : SdkSearch).filter_sdk
        ver := by
  funext sdk
  rw [filter_sdk_spec_eq, filter_sdk_spec_eq, hm]
  cases ver sdk with
  | none => rfl
  | some v => simp [keptPerSpec, cmp_eq_cmp_zero_of_malformed v m h]

theorem filter_sdk_max_zero {SDK : Type} (cfg : SdkSearch)
    (ver : SDK → Option SdkVersion) (m : SdkVersion)
    (hm : cfg.maximum_version = some m)
    (h : (m.normalized_version).isOk = false) :
    cfg.filter_sdk ver =
      ({cfg with maximum_version := some ⟨"0"⟩} : SdkSearch).filter_sdk
        ver := by
  funext sdk
  rw [filter_sdk_spec_eq, filter_sdk_spec_eq, hm]
  cases ver sdk with
  | none => rfl
  | some v => simp [keptPerSpec, cmp_eq_cmp_zero_of_malformed v m h]

/-- C1 amended: a malformed minimum or maximum version bound does not
abort the search; the bound is normalized to (0,0,0) by the ordering, so
the search behaves exactly as if that bound were the version string "0"
and can complete with a result list. -/
theorem search_malformed_bound_as_zero {SDK : Type} (cfg : SdkSearch)
    (env : SearchEnv) (fromDir : Path → Except Error SDK)
    (ver : SDK → Option SdkVersion) (m : SdkVersion)
    (hmv : (m.normalized_version).isOk = false) :
    (cfg.minimum_version = some m →
      cfg.search env fromDir ver =
        ({cfg with minimum_version := some ⟨"0"⟩} : SdkSearch).search env
          fromDir ver) ∧
    (cfg.maximum_version = some m →
      cfg.search env fromDir ver =
        ({cfg with maximum_version := some ⟨"0"⟩} : SdkSearch).search env
          fromDir ver) := by
  constructor
  · intro hm
    unfold SdkSearch.search
    rw [filter_sdk_min_zero cfg ver m hm hmv]
    rfl
  · intro hm
    unfold SdkSearch.search
    rw [filter_sdk_max_zero cfg ver m hm hmv]
    rfl

/-- Witness for the C1 amended claim: the malformed-bound search over
`fsOneSdk` equals the same search with bound "0", and both return the one
discovered SDK. -/
theorem search_malformed_bound_as_zero_witness :
    ((SdkVersion.mk "not-a-version").normalized_version).isOk = false ∧
      cfgMalformedMin.minimum_version = some ⟨"not-a-version"⟩ ∧
      SdkSearch.search cfgMalformedMin envOneSdk SdkPath.from_path
          SdkPath.version =
        SdkSearch.search
          {cfgMalformedMin with minimum_version := some ⟨"0"⟩} envOneSdk
          SdkPath.from_path SdkPath.version ∧
      SdkSearch.search cfgMalformedMin envOneSdk SdkPath.from_path
          SdkPath.version =
        .ok [⟨["sdks", "MacOSX12.sdk"], .macOsX, some ⟨"12"⟩⟩] := by
  refine ⟨by decide, rfl, ?_, by decide⟩
  exact (search_malformed_bound_as_zero cfgMalformedMin envOneSdk
    SdkPath.from_path SdkPath.version ⟨"not-a-version"⟩ (by decide)).1 rfl

end AppleSdk

namespace AppleSdk

/-- C10: the platform filter constrains only developer-directory roots: a
direct SDKs-directory root resolves to itself unchanged whatever the
platform filter is; filter_sdk depends only on the SDK's version; and a
search over one direct SDKs directory with a platform filter set returns
exactly the enumerated SDKs passing the version filter, whatever their
platform. -/
theorem sdks_root_ignores_platform_filter {SDK A B : Type}
    (fs : FileSystem) (platform : Option ApplePlatform) (p : Path)
    (cfg : SdkSearch) (verA : A → Option SdkVersion)
    (verB : B → Option SdkVersion) (a : A) (b : B) (pl : ApplePlatform)
    (mi ma : Option SdkVersion) (env : SearchEnv)
    (fromDir : Path → Except Error SDK)
    (ver : SDK → Option SdkVersion) :
    SearchDirectory.resolve_sdks_dirs (.sdks p) fs platform = .ok [p] ∧
      (verA a = verB b →
        cfg.filter_sdk verA a = cfg.filter_sdk verB b) ∧
      SdkSearch.search (cfgSdksOnly p pl mi ma) env fromDir ver =
        (find_sdks_in_directory fromDir env.fs p).map
          (List.filter ((cfgSdksOnly p pl mi ma).filter_sdk ver)) := by
  refine ⟨rfl, ?_, ?_⟩
  · intro h
    rw [filter_sdk_spec_eq, filter_sdk_spec_eq, h]
  · cases hf : find_sdks_in_directory fromDir env.fs p with
    | error e =>
      simp [SdkSearch.search, SdkSearch.searchLoop, SdkSearch.processSdkDirs,
        SearchDirectory.resolve_sdks_dirs, SdkSearch.buildSearchDirs,
        cfgSdksOnly, SdkSearch.default, SdkSearch.appendDir, Except.map, hf]
    | ok sdks =>
      simp [SdkSearch.search, SdkSearch.searchLoop, SdkSearch.processSdkDirs,
        SearchDirectory.resolve_sdks_dirs, SdkSearch.buildSearchDirs,
        cfgSdksOnly, SdkSearch.default, SdkSearch.appendDir, Except.map, hf]

/-- Witness for C10: a macOS-filtered search over a direct SDKs directory
containing only an iPhoneOS SDK still returns that SDK. -/
theorem sdks_root_ignores_platform_filter_witness :
    SdkPath.version ⟨["xsdks", "iPhoneOS16.sdk"], .iPhoneOs, some ⟨"16"⟩⟩ =
        (fun _ => some (SdkVersion.mk "16")) () ∧
      (cfgSdksOnly ["xsdks"] .macOsX none none).filter_sdk SdkPath.version
          ⟨["xsdks", "iPhoneOS16.sdk"], .iPhoneOs, some ⟨"16"⟩⟩ =
        (cfgSdksOnly ["xsdks"] .macOsX none none).filter_sdk
          (fun _ => some (SdkVersion.mk "16")) () ∧
      SdkSearch.search (cfgSdksOnly ["xsdks"] .macOsX none none) envCross
          SdkPath.from_path SdkPath.version =
        .ok [⟨["xsdks", "iPhoneOS16.sdk"], .iPhoneOs, some ⟨"16"⟩⟩] := by
  refine ⟨by decide, ?_, ?_⟩
  · exact (sdks_root_ignores_platform_filter fsCross none ["xsdks"]
      (cfgSdksOnly ["xsdks"] .macOsX none none) SdkPath.version
      (fun _ => some (SdkVersion.mk "16"))
      ⟨["xsdks", "iPhoneOS16.sdk"], .iPhoneOs, some ⟨"16"⟩⟩ () .macOsX
      none none envCross SdkPath.from_path SdkPath.version).2.1 (by decide)
  · exact Eq.trans
      ((sdks_root_ignores_platform_filter fsCross none ["xsdks"]
        (cfgSdksOnly ["xsdks"] .macOsX none none) SdkPath.version
        (fun _ => some (SdkVersion.mk "16"))
        ⟨["xsdks", "iPhoneOS16.sdk"], .iPhoneOs, some ⟨"16"⟩⟩ () .macOsX
        none none envCross SdkPath.from_path SdkPath.version).2.2)
      (by decide)

end AppleSdk

namespace AppleSdk

/-! ## Helper lemmas: all-or-nothing map and dot splitting -/

theorem mapOpt_eq_some_filterMap (f : α → Option β) (l : List α)
    (h : ∀ a ∈ l, (f a).isSome = true) :
    mapOpt f l = some (l.filterMap f) := by
  induction l with
  | nil => rfl
  | cons a as_ ih =>
    cases hfa : f a with
    | none =>
      have := h a (List.mem_cons_self a as_)
      rw [hfa] at this
      simp at this
    | some b =>
      unfold mapOpt
      rw [hfa, ih (fun x hx => h x (List.mem_cons_of_mem a hx)),
        List.filterMap_cons_some hfa]
      rfl

theorem mapOpt_length {f : α → Option β} :
    ∀ {l : List α} {ys : List β}, mapOpt f l = some ys →
      ys.length = l.length := by
  intro l
  induction l with
  | nil => intro ys h; cases h; rfl
  | cons a as_ ih =>
    intro ys h
    unfold mapOpt at h
    cases hfa : f a with
    | none => rw [hfa] at h; cases h
    | some b =>
      rw [hfa] at h
      cases hrest : mapOpt f as_ with
      | none => rw [hrest] at h; cases h
      | some zs =>
        rw [hrest] at h
        cases h
        simp [ih hrest]

theorem mapOpt_eq_none (f : α → Option β) {l : List α} {a : α}
    (ha : a ∈ l) (hfa : f a = none) : mapOpt f l = none := by
  induction l with
  | nil => cases ha
  | cons x xs ih =>
    unfold mapOpt
    rcases List.mem_cons.mp ha with rfl | hmem
    · rw [hfa]
    · cases hfx : f x with
      | none => rfl
      | some b => rw [ih hmem]; rfl

theorem splitOnDot_ne_nil (l : List Char) : splitOnDot l ≠ [] := by
  cases l with
  | nil => simp [splitOnDot]
  | cons c rest =>
    unfold splitOnDot
    by_cases hc : c = '.'
    · simp [hc]
    · simp only [hc, if_false]
      cases splitOnDot rest <;> simp

/-- C5: a version string with 1-3 dot-separated components each parsing as
an unsigned 8-bit integer normalizes successfully, right-padded with
zeros, and renders as the canonical zero-padded X.Y.Z string; any other
component count or unparseable component makes both operations return an
error. -/
theorem version_parse_roundtrip (v : SdkVersion) :
    (goodVersionShape v = true →
      v.normalized_version = .ok (padTriple (parsedComponents v)) ∧
        v.semantic_version =
          .ok (tripleString (padTriple (parsedComponents v)))) ∧
    (goodVersionShape v = false →
      v.normalized_version = .error (.versionParse v.value) ∧
        v.semantic_version = .error (.versionParse v.value)) := by
  constructor
  · intro h
    unfold goodVersionShape at h
    obtain ⟨hlen, hall⟩ := Bool.and_eq_true_iff.mp h
    have hall2 : ∀ p ∈ splitOnDot v.value.toList, (parseU8 p).isSome = true := by
      intro p hp
      exact List.all_eq_true.mp hall p hp
    have hmap := mapOpt_eq_some_filterMap parseU8 _ hall2
    have hle : (splitOnDot v.value.toList).length ≤ 3 := of_decide_eq_true hlen
    have hlen2 := mapOpt_length hmap
    have hne : (splitOnDot v.value.toList).length ≠ 0 := by
      intro h0
      exact splitOnDot_ne_nil v.value.toList (List.length_eq_zero.mp h0)
    have hcomp : parsedComponents v = (splitOnDot v.value.toList).filterMap parseU8 := rfl
    rcases hks : (splitOnDot v.value.toList).filterMap parseU8 with
      _ | ⟨a, _ | ⟨b, _ | ⟨c, _ | ⟨d, tl⟩⟩⟩⟩
    · rw [hks] at hlen2
      simp only [List.length_nil] at hlen2
      exact absurd hlen2.symm hne
    · rw [hks] at hmap
      constructor
      · unfold SdkVersion.normalized_version
        rw [hmap, hcomp, hks]
        rfl
      · unfold SdkVersion.semantic_version SdkVersion.normalized_version
        rw [hmap, hcomp, hks]
        rfl
    · rw [hks] at hmap
      exact ⟨by unfold SdkVersion.normalized_version; rw [hmap, hcomp, hks]; rfl,
        by unfold SdkVersion.semantic_version SdkVersion.normalized_version
           rw [hmap, hcomp, hks]; rfl⟩
    · rw [hks] at hmap
      exact ⟨by unfold SdkVersion.normalized_version; rw [hmap, hcomp, hks]; rfl,
        by unfold SdkVersion.semantic_version SdkVersion.normalized_version
           rw [hmap, hcomp, hks]; rfl⟩
    · rw [hks] at hlen2
      simp only [List.length_cons] at hlen2
      omega
  · intro h
    unfold goodVersionShape at h
    by_cases hall : (splitOnDot v.value.toList).all
        (fun p => (parseU8 p).isSome) = true
    · have hlen : ¬ (splitOnDot v.value.toList).length ≤ 3 := by
        intro hle
        rw [decide_eq_true hle, hall] at h
        cases h
      have hall2 : ∀ p ∈ splitOnDot v.value.toList, (parseU8 p).isSome = true := by
        intro p hp
        exact List.all_eq_true.mp hall p hp
      have hmap := mapOpt_eq_some_filterMap parseU8 _ hall2
      have hlen2 := mapOpt_length hmap
      rcases hks : (splitOnDot v.value.toList).filterMap parseU8 with
        _ | ⟨a, _ | ⟨b, _ | ⟨c, _ | ⟨d, tl⟩⟩⟩⟩ <;>
        rw [hks] at hlen2 <;>
        simp only [List.length_cons, List.length_nil] at hlen2
      · omega
      · omega
      · omega
      · omega
      · rw [hks] at hmap
        refine ⟨by unfold SdkVersion.normalized_version; rw [hmap],
          by unfold SdkVersion.semantic_version SdkVersion.normalized_version
             rw [hmap]; rfl⟩
    · have hfalse := Bool.eq_false_iff.mpr hall
      rcases List.all_eq_false.mp hfalse with ⟨p, hp, hfail⟩
      have hnone : parseU8 p = none := by
        cases hpu : parseU8 p with
        | none => rfl
        | some b => rw [hpu] at hfail; simp at hfail
      have hmap := mapOpt_eq_none parseU8 hp hnone
      refine ⟨by unfold SdkVersion.normalized_version; rw [hmap],
        by unfold SdkVersion.semantic_version SdkVersion.normalized_version
           rw [hmap]; rfl⟩

end AppleSdk

namespace AppleSdk

/-- Witness for C5 at "12.3" (well-formed, padded to 12.3.0) and
"12.3.1.2" (four components: both operations fail). -/
theorem version_parse_roundtrip_witness :
    goodVersionShape ⟨"12.3"⟩ = true ∧
      SdkVersion.normalized_version ⟨"12.3"⟩ = .ok (12, 3, 0) ∧
      SdkVersion.semantic_version ⟨"12.3"⟩ = .ok "12.3.0" ∧
      goodVersionShape ⟨"12.3.1.2"⟩ = false ∧
      SdkVersion.normalized_version ⟨"12.3.1.2"⟩ =
        .error (.versionParse "12.3.1.2") ∧
      SdkVersion.semantic_version ⟨"12.3.1.2"⟩ =
        .error (.versionParse "12.3.1.2") := by
  refine ⟨by decide, ?_, ?_, by decide, ?_, ?_⟩
  · exact Eq.trans ((version_parse_roundtrip ⟨"12.3"⟩).1 (by decide)).1 (by decide)
  · exact Eq.trans ((version_parse_roundtrip ⟨"12.3"⟩).1 (by decide)).2 (by decide)
  · exact ((version_parse_roundtrip ⟨"12.3.1.2"⟩).2 (by decide)).1
  · exact ((version_parse_roundtrip ⟨"12.3.1.2"⟩).2 (by decide)).2

end AppleSdk

namespace AppleSdk

/-! ## Helper lemmas: dot splitting and path-name parsing -/

theorem splitOnceDot_eq_some :
    ∀ {l a b : List Char}, splitOnceDot l = some (a, b) →
      l = a ++ '.' :: b ∧ '.' ∉ a := by
  intro l
  induction l with
  | nil => intro a b h; cases h
  | cons c rest ih =>
    intro a b h
    unfold splitOnceDot at h
    by_cases hc : c = '.'
    · rw [if_pos hc] at h
      cases h
      subst hc
      exact ⟨rfl, by simp⟩
    · rw [if_neg hc] at h
      cases hrest : splitOnceDot rest with
      | none => rw [hrest] at h; cases h
      | some p =>
        rw [hrest] at h
        cases h
        obtain ⟨h1, h2⟩ := ih hrest
        refine ⟨by rw [List.cons_append, ← h1], ?_⟩
        intro hmem
        rcases List.mem_cons.mp hmem with heq | hmem2
        · exact hc heq.symm
        · exact h2 hmem2

theorem splitOnceDot_append (a b : List Char) (ha : '.' ∉ a) :
    splitOnceDot (a ++ '.' :: b) = some (a, b) := by
  induction a with
  | nil => simp [splitOnceDot]
  | cons c cs ih =>
    have hc : ¬ (c = '.') := fun h => ha (h ▸ List.mem_cons_self c cs)
    have hcs : '.' ∉ cs := fun h => ha (List.mem_cons_of_mem c h)
    rw [List.cons_append]
    unfold splitOnceDot
    rw [if_neg hc, ih hcs]
    rfl

theorem splitOnceDot_eq_none {l : List Char} (h : '.' ∉ l) :
    splitOnceDot l = none := by
  induction l with
  | nil => rfl
  | cons c rest ih =>
    have hc : ¬ (c = '.') := fun hcontra => h (hcontra ▸ List.mem_cons_self c rest)
    have hrest : '.' ∉ rest := fun hm => h (List.mem_cons_of_mem c hm)
    unfold splitOnceDot
    rw [if_neg hc, ih hrest]
    rfl

theorem rsplitOnceDot_append_sdk (stem : List Char) :
    rsplitOnceDot (stem ++ ".sdk".toList) = some (stem, "sdk".toList) := by
  unfold rsplitOnceDot
  rw [show (stem ++ ".sdk".toList).reverse =
      'k' :: 'd' :: 's' :: '.' :: stem.reverse from by
    rw [List.reverse_append]
    rfl]
  rw [show splitOnceDot ('k' :: 'd' :: 's' :: '.' :: stem.reverse) =
      some (['k', 'd', 's'], stem.reverse) from by
    simp [splitOnceDot]]
  simp

theorem rsplitOnceDot_sdk_suffix {l stem : List Char}
    (h : rsplitOnceDot l = some (stem, "sdk".toList)) :
    l = stem ++ ".sdk".toList := by
  unfold rsplitOnceDot at h
  cases hsp : splitOnceDot l.reverse with
  | none => rw [hsp] at h; cases h
  | some p =>
    rw [hsp] at h
    simp only [Option.map] at h
    injection h with h3
    have hst : p.2.reverse = stem := congrArg Prod.fst h3
    have hsf : p.1.reverse = "sdk".toList := congrArg Prod.snd h3
    obtain ⟨h1, h2⟩ := splitOnceDot_eq_some hsp
    have hp1 : p.1 = ['k', 'd', 's'] := by
      have := congrArg List.reverse hsf
      rw [List.reverse_reverse] at this
      rw [this]
      rfl
    have hl : l = (p.1 ++ '.' :: p.2).reverse := by
      rw [← h1, List.reverse_reverse]
    rw [hl, List.reverse_append, hp1, ← hst]
    simp [List.reverse_cons, List.append_assoc]

theorem from_path_of_rsplit_none {s : String}
    (h : rsplitOnceDot s.toList = none) :
    SdkPath.from_path [s] = .error (.pathNotSdk [s]) := by
  unfold SdkPath.from_path
  simp only [Path.fileName?, List.getLast?_singleton, h]

theorem from_path_of_rsplit_not_sdk {s : String} {stem sfx : List Char}
    (h : rsplitOnceDot s.toList = some (stem, sfx))
    (hs : ¬ (sfx = "sdk".toList)) :
    SdkPath.from_path [s] = .error (.pathNotSdk [s]) := by
  unfold SdkPath.from_path
  simp only [Path.fileName?, List.getLast?_singleton, h, if_neg hs]

theorem from_path_of_rsplit_sdk {s : String} {stem : List Char}
    (h : rsplitOnceDot s.toList = some (stem, "sdk".toList)) :
    SdkPath.from_path [s] =
      match stem.findIdx? (fun c => c.isDigit) with
      | some i => .ok ⟨[s], ApplePlatform.from_str (String.mk (stem.take i)),
          some ⟨String.mk (stem.drop i)⟩⟩
      | none => .ok ⟨[s], ApplePlatform.from_str (String.mk stem), none⟩ := by
  unfold SdkPath.from_path
  simp only [Path.fileName?, List.getLast?_singleton, h, ite_true, if_true]

theorem findIdx_take_drop (p : Char → Bool) :
    ∀ (l : List Char) (j : Nat), List.findIdx? p l = some j →
      l.take j = l.takeWhile (fun c => !p c) ∧
        l.drop j = l.dropWhile (fun c => !p c) := by
  intro l
  induction l with
  | nil => intro j h; rw [List.findIdx?_nil] at h; cases h
  | cons c cs ih =>
    intro j h
    rw [List.findIdx?_cons] at h
    by_cases hp : p c = true
    · rw [if_pos hp] at h
      cases h
      constructor
      · rw [List.take_zero, List.takeWhile_cons, if_neg (by simp [hp])]
      · rw [List.drop_zero, List.dropWhile_cons, if_neg (by simp [hp])]
    · rw [if_neg hp, List.findIdx?_succ] at h
      cases hfi : List.findIdx? p cs with
      | none => rw [hfi] at h; cases h
      | some j2 =>
        rw [hfi] at h
        cases h
        obtain ⟨h1, h2⟩ := ih j2 hfi
        constructor
        · rw [List.take_succ_cons, h1, List.takeWhile_cons,
            if_pos (by simp [hp])]
        · rw [List.drop_succ_cons, h2, List.dropWhile_cons,
            if_pos (by simp [hp])]

theorem findIdx_isSome_eq_any (p : Char → Bool) :
    ∀ (l : List Char), (List.findIdx? p l).isSome = l.any p := by
  intro l
  induction l with
  | nil => rfl
  | cons c cs ih =>
    rw [List.findIdx?_cons]
    by_cases hp : p c = true
    · rw [if_pos hp]
      simp [hp]
    · rw [if_neg hp, List.findIdx?_succ, List.any_cons]
      rw [← ih]
      cases List.findIdx? p cs <;> simp [hp]

end AppleSdk

namespace AppleSdk

theorem takeWhile_eq_self_of_all_neg {p : Char → Bool} {l : List Char}
    (h : ∀ c ∈ l, ¬ p c = true) : l.takeWhile (fun c => !p c) = l := by
  induction l with
  | nil => rfl
  | cons c cs ih =>
    rw [List.takeWhile_cons, if_pos (by simp [h c (List.mem_cons_self c cs)]),
      ih (fun x hx => h x (List.mem_cons_of_mem c hx))]

/-- C6: SdkPath parsing of a directory name: a name not ending in the
literal ".sdk" is rejected with a hard not-an-SDK error; a name of the
form stem ++ ".sdk" parses successfully: everything before the stem's
first decimal digit is the platform name (resolved with the Unknown
fallback), everything from that digit onward is the version string, and a
stem with no digit yields no version. -/
theorem sdk_path_from_name (s : String) :
    (endsWithDotSdk s = false →
      SdkPath.from_path [s] = .error (.pathNotSdk [s])) ∧
    (∀ stem : String, s = stem ++ ".sdk" →
      SdkPath.from_path [s] =
        .ok ⟨[s],
          ApplePlatform.from_str
            (String.mk (stem.toList.takeWhile (fun c => !c.isDigit))),
          if stem.toList.any (fun c => c.isDigit) then
            some ⟨String.mk (stem.toList.dropWhile (fun c => !c.isDigit))⟩
          else none⟩) := by
  constructor
  · intro hsfx
    cases hsp : rsplitOnceDot s.toList with
    | none => exact from_path_of_rsplit_none hsp
    | some p =>
      obtain ⟨st, sf⟩ := p
      by_cases hsdk : sf = "sdk".toList
      · exfalso
        subst hsdk
        have hl := rsplitOnceDot_sdk_suffix hsp
        unfold endsWithDotSdk at hsfx
        rw [hl, List.reverse_append] at hsfx
        rw [List.isPrefixOf_iff_prefix.mpr (List.prefix_append _ _)] at hsfx
        cases hsfx
      · exact from_path_of_rsplit_not_sdk hsp hsdk
  · intro stem hs
    subst hs
    have htl : (stem ++ ".sdk").toList = stem.toList ++ ".sdk".toList := by
      simp [String.toList, String.data_append]
    have hsp : rsplitOnceDot (stem ++ ".sdk").toList =
        some (stem.toList, "sdk".toList) := by
      rw [htl]
      exact rsplitOnceDot_append_sdk _
    have hred := from_path_of_rsplit_sdk hsp
    cases hfi : List.findIdx? (fun c => c.isDigit) stem.toList with
    | some j =>
      rw [hred]
      simp only [hfi]
      obtain ⟨ht, hd⟩ := findIdx_take_drop _ _ _ hfi
      have hany : stem.toList.any (fun c => c.isDigit) = true := by
        rw [← findIdx_isSome_eq_any, hfi]
        rfl
      rw [ht, hd, if_pos hany]
    | none =>
      rw [hred]
      simp only [hfi]
      have hany : stem.toList.any (fun c => c.isDigit) = false := by
        rw [← findIdx_isSome_eq_any, hfi]
        rfl
      have hall : ∀ c ∈ stem.toList, ¬ (c.isDigit = true) := by
        intro c hc
        exact List.any_eq_false.mp hany c hc
      rw [if_neg (by rw [hany]; exact Bool.false_ne_true),
        takeWhile_eq_self_of_all_neg hall]

/-- Witness for C6: "foo" is rejected; "MacOSX.sdk" parses to (macOS, no
version); "MacOSX12.3.sdk" parses to (macOS, "12.3"). -/
theorem sdk_path_from_name_witness :
    endsWithDotSdk "foo" = false ∧
      SdkPath.from_path ["foo"] = .error (.pathNotSdk ["foo"]) ∧
      SdkPath.from_path ["MacOSX.sdk"] =
        .ok ⟨["MacOSX.sdk"], .macOsX, none⟩ ∧
      SdkPath.from_path ["MacOSX12.3.sdk"] =
        .ok ⟨["MacOSX12.3.sdk"], .macOsX, some ⟨"12.3"⟩⟩ := by
  refine ⟨by decide, (sdk_path_from_name "foo").1 (by decide), ?_, ?_⟩
  · exact Eq.trans ((sdk_path_from_name "MacOSX.sdk").2 "MacOSX" (by decide))
      (by decide)
  · exact Eq.trans
      ((sdk_path_from_name "MacOSX12.3.sdk").2 "MacOSX12.3" (by decide))
      (by decide)

end AppleSdk

namespace AppleSdk

theorem from_platform_path_of_split_none {s : String}
    (h : splitOnceDot s.toList = none) :
    ApplePlatform.from_platform_path [s] = .error (.pathNotPlatform [s]) := by
  unfold ApplePlatform.from_platform_path
  simp only [Path.fileName?, List.getLast?_singleton, h]

theorem from_platform_path_of_split {s : String} {a b : List Char}
    (h : splitOnceDot s.toList = some (a, b)) :
    ApplePlatform.from_platform_path [s] =
      if b = "platform".toList then
        .ok (ApplePlatform.from_str (String.mk a))
      else .error (.pathNotPlatform [s]) := by
  unfold ApplePlatform.from_platform_path
  simp only [Path.fileName?, List.getLast?_singleton, h]

/-- C7: a platform-directory name of the form id ++ ".platform" (id
dot-free, so the name has exactly one dot) always parses, resolving id
against the enumeration with the Unknown fallback; a name with no dot, or
whose part after the first dot is not the literal "platform", fails with
the not-a-platform error. -/
theorem platform_dir_name_parsing (s : String) :
    (∀ id : String, '.' ∉ id.toList → s = id ++ ".platform" →
      ApplePlatform.from_platform_path [s] =
        .ok (ApplePlatform.from_str id)) ∧
    ('.' ∉ s.toList →
      ApplePlatform.from_platform_path [s] =
        .error (.pathNotPlatform [s])) ∧
    (∀ a b : String, '.' ∉ a.toList → s = a ++ "." ++ b → b ≠ "platform" →
      ApplePlatform.from_platform_path [s] =
        .error (.pathNotPlatform [s])) := by
  refine ⟨?_, ?_, ?_⟩
  · intro id hid hs
    subst hs
    have htl : (id ++ ".platform").toList =
        id.toList ++ '.' :: "platform".toList := by
      calc (id ++ ".platform").toList
          = id.toList ++ ".platform".toList := by
            simp [String.toList, String.data_append]
        _ = id.toList ++ '.' :: "platform".toList := by
            rw [show (".platform").toList = '.' :: "platform".toList from by
              decide]
    rw [from_platform_path_of_split
      (by rw [htl]; exact splitOnceDot_append _ _ hid), if_pos rfl]
    rfl
  · intro h
    exact from_platform_path_of_split_none (splitOnceDot_eq_none h)
  · intro a b ha hs hb
    subst hs
    have htl : (a ++ "." ++ b).toList = a.toList ++ '.' :: b.toList := by
      calc (a ++ "." ++ b).toList
          = (a ++ ".").toList ++ b.toList := by
            simp [String.toList, String.data_append]
        _ = (a.toList ++ ['.']) ++ b.toList := by
            simp [String.toList, String.data_append]
        _ = a.toList ++ '.' :: b.toList := by
            simp
    rw [from_platform_path_of_split
      (by rw [htl]; exact splitOnceDot_append _ _ ha),
      if_neg (show ¬(b.toList = "platform".toList) from
        fun hc => hb (congrArg String.mk hc))]

/-- Witness for C7: "MacOSX.platform" parses to the macOS platform,
"Future.platform" parses to the Unknown fallback, "foo" (no dot) and
"Foo.bar" (trailing segment not "platform") fail. -/
theorem platform_dir_name_parsing_witness :
    ('.' ∉ "MacOSX".toList) ∧
      ApplePlatform.from_platform_path ["MacOSX.platform"] =
        .ok .macOsX ∧
      ApplePlatform.from_platform_path ["Future.platform"] =
        .ok (.unknown "Future") ∧
      ApplePlatform.from_platform_path ["foo"] =
        .error (.pathNotPlatform ["foo"]) ∧
      ApplePlatform.from_platform_path ["Foo.bar"] =
        .error (.pathNotPlatform ["Foo.bar"]) := by
  refine ⟨by decide, ?_, ?_, ?_, ?_⟩
  · exact Eq.trans
      ((platform_dir_name_parsing "MacOSX.platform").1 "MacOSX" (by decide)
        (by decide)) (by decide)
  · exact Eq.trans
      ((platform_dir_name_parsing "Future.platform").1 "Future" (by decide)
        (by decide)) (by decide)
  · exact (platform_dir_name_parsing "foo").2.1 (by decide)
  · exact (platform_dir_name_parsing "Foo.bar").2.2 "Foo" "bar" (by decide)
      (by decide) (by decide)

end AppleSdk

namespace AppleSdk

/-! ## Helper lemmas: directory enumeration loops -/

theorem collectPlatformDirs_names (base : Path) (names : List String) :
    ApplePlatformDirectory.collectPlatformDirs base (names.map DirEntry.name) =
      .ok (names.filterMap (fun n =>
        exceptOk? (ApplePlatformDirectory.from_path (base ++ [n])))) := by
  induction names with
  | nil => rfl
  | cons n ns ih =>
    rw [List.map_cons]
    unfold ApplePlatformDirectory.collectPlatformDirs
    cases hfp : ApplePlatformDirectory.from_path (base ++ [n]) with
    | ok pd => simp [ih, List.filterMap_cons, hfp, exceptOk?, Except.map]
    | error e => simp [ih, List.filterMap_cons, hfp, exceptOk?]

theorem collectPlatformDirs_fail (base : Path) (names : List String)
    (rest : List DirEntry) :
    ApplePlatformDirectory.collectPlatformDirs base
        (names.map DirEntry.name ++ DirEntry.fail :: rest) = .error .io := by
  induction names with
  | nil => rfl
  | cons n ns ih =>
    rw [List.map_cons, List.cons_append]
    unfold ApplePlatformDirectory.collectPlatformDirs
    cases hfp : ApplePlatformDirectory.from_path (base ++ [n]) with
    | ok pd => simp [ih, Except.map]
    | error e => simpa using ih

theorem collectSdks_names {SDK : Type} (fromDir : Path → Except Error SDK)
    (base : Path) (names : List String)
    (h : ∀ n ∈ names, okOrNotSdk (fromDir (base ++ [n])) = true) :
    collectSdks fromDir base (names.map DirEntry.name) =
      .ok (names.filterMap (fun n => exceptOk? (fromDir (base ++ [n])))) := by
  induction names with
  | nil => rfl
  | cons n ns ih =>
    have hrest : ∀ m ∈ ns, okOrNotSdk (fromDir (base ++ [m])) = true :=
      fun m hm => h m (List.mem_cons_of_mem n hm)
    rw [List.map_cons]
    unfold collectSdks
    cases hfd : fromDir (base ++ [n]) with
    | ok sdk => simp [ih hrest, List.filterMap_cons, hfd, exceptOk?, Except.map]
    | error e =>
      have hn := h n (List.mem_cons_self n ns)
      rw [hfd] at hn
      unfold okOrNotSdk at hn
      cases e with
      | pathNotSdk p => simp [ih hrest, List.filterMap_cons, hfd, exceptOk?]
      | io => cases hn
      | xcodeSelectRun => cases hn
      | xcodeSelectBadStatus => cases hn
      | pathNotPlatform p => cases hn
      | versionParse v => cases hn

theorem collectSdks_hard_error {SDK : Type} (fromDir : Path → Except Error SDK)
    (base : Path) (names : List String) (bad : String)
    (rest : List DirEntry) (e : Error)
    (h : ∀ n ∈ names, okOrNotSdk (fromDir (base ++ [n])) = true)
    (hbad : fromDir (base ++ [bad]) = .error e)
    (hne : isPathNotSdkError e = false) :
    collectSdks fromDir base
        (names.map DirEntry.name ++ DirEntry.name bad :: rest) = .error e := by
  induction names with
  | nil =>
    rw [List.map_nil, List.nil_append]
    unfold collectSdks
    rw [hbad]
    cases e with
    | pathNotSdk p => cases hne
    | io => rfl
    | xcodeSelectRun => rfl
    | xcodeSelectBadStatus => rfl
    | pathNotPlatform p => rfl
    | versionParse v => rfl
  | cons n ns ih =>
    have hrest : ∀ m ∈ ns, okOrNotSdk (fromDir (base ++ [m])) = true :=
      fun m hm => h m (List.mem_cons_of_mem n hm)
    rw [List.map_cons, List.cons_append]
    unfold collectSdks
    cases hfd : fromDir (base ++ [n]) with
    | ok sdk => simp [ih hrest, Except.map]
    | error e2 =>
      have hn := h n (List.mem_cons_self n ns)
      rw [hfd] at hn
      unfold okOrNotSdk at hn
      cases e2 with
      | pathNotSdk p => simpa using ih hrest
      | io => cases hn
      | xcodeSelectRun => cases hn
      | xcodeSelectBadStatus => cases hn
      | pathNotPlatform p => cases hn
      | versionParse v => cases hn

end AppleSdk

namespace AppleSdk

/-- C8: both bulk enumerations treat absence as empty and shape mismatch
as skip: find_in_developer_directory yields an empty list (not an error)
when the Platforms directory is missing and silently skips children that
fail to parse as platform directories; find_sdks_in_directory yields an
empty list (not an error) when the root is missing and swallows per-child
not-an-SDK results; in both, any other I/O failure (read_dir error, entry
error, or a hard from_directory error) aborts the enumeration and
propagates. -/
theorem enumeration_absence_and_skip {SDK : Type} (fs : FileSystem)
    (dev root : Path) (fromDir : Path → Except Error SDK) :
    (fs.readDir (dev ++ ["Platforms"]) = .notFound →
      ApplePlatformDirectory.find_in_developer_directory fs dev = .ok []) ∧
    (fs.readDir (dev ++ ["Platforms"]) = .otherError →
      ApplePlatformDirectory.find_in_developer_directory fs dev =
        .error .io) ∧
    (∀ names : List String,
      fs.readDir (dev ++ ["Platforms"]) = .ok (names.map DirEntry.name) →
      ApplePlatformDirectory.find_in_developer_directory fs dev =
        .ok (sortLe (fun a b => pathLe a.path b.path)
          (names.filterMap (fun n => exceptOk?
            (ApplePlatformDirectory.from_path
              (dev ++ ["Platforms"] ++ [n])))))) ∧
    (∀ (names : List String) (rest : List DirEntry),
      fs.readDir (dev ++ ["Platforms"]) =
        .ok (names.map DirEntry.name ++ DirEntry.fail :: rest) →
      ApplePlatformDirectory.find_in_developer_directory fs dev =
        .error .io) ∧
    (fs.readDir root = .notFound →
      find_sdks_in_directory fromDir fs root = .ok []) ∧
    (fs.readDir root = .otherError →
      find_sdks_in_directory fromDir fs root = .error .io) ∧
    (∀ names : List String,
      fs.readDir root = .ok (names.map DirEntry.name) →
      (∀ n ∈ names, okOrNotSdk (fromDir (root ++ [n])) = true) →
      find_sdks_in_directory fromDir fs root =
        .ok (names.filterMap (fun n => exceptOk? (fromDir (root ++ [n]))))) ∧
    (∀ (names : List String) (bad : String) (rest : List DirEntry)
        (e : Error),
      fs.readDir root =
        .ok (names.map DirEntry.name ++ DirEntry.name bad :: rest) →
      (∀ n ∈ names, okOrNotSdk (fromDir (root ++ [n])) = true) →
      fromDir (root ++ [bad]) = .error e →
      isPathNotSdkError e = false →
      find_sdks_in_directory fromDir fs root = .error e) := by
  refine ⟨?_, ?_, ?_, ?_, ?_, ?_, ?_, ?_⟩
  · intro h
    unfold ApplePlatformDirectory.find_in_developer_directory
    simp only [h]
  · intro h
    unfold ApplePlatformDirectory.find_in_developer_directory
    simp only [h]
  · intro names h
    unfold ApplePlatformDirectory.find_in_developer_directory
    simp only [h, collectPlatformDirs_names, Except.map]
  · intro names rest h
    unfold ApplePlatformDirectory.find_in_developer_directory
    simp only [h, collectPlatformDirs_fail, Except.map]
  · intro h
    unfold find_sdks_in_directory
    simp only [h]
  · intro h
    unfold find_sdks_in_directory
    simp only [h]
  · intro names h hok
    unfold find_sdks_in_directory
    simp only [h, collectSdks_names fromDir root names hok]
  · intro names bad rest e h hok hbad hne
    unfold find_sdks_in_directory
    simp only [h,
      collectSdks_hard_error fromDir root names bad rest e hok hbad hne]

/-- Witness for C8: a missing Platforms directory yields an empty list;
a mixed SDKs directory yields the two SDKs and skips the non-SDK child;
a hard per-child failure propagates. -/
theorem enumeration_absence_and_skip_witness :
    ApplePlatformDirectory.find_in_developer_directory fsNone ["d"] =
        .ok [] ∧
      find_sdks_in_directory SdkPath.from_path fsSdksMix ["r"] =
        .ok [⟨["r", "MacOSX12.sdk"], .macOsX, some ⟨"12"⟩⟩,
          ⟨["r", "MacOSX13.sdk"], .macOsX, some ⟨"13"⟩⟩] ∧
      find_sdks_in_directory fromDirHardFail fsSdksBoom ["r"] =
        .error .io := by
  refine ⟨?_, ?_, ?_⟩
  · exact (enumeration_absence_and_skip fsNone ["d"] ["r"]
      SdkPath.from_path).1 rfl
  · exact Eq.trans
      ((enumeration_absence_and_skip fsSdksMix ["d"] ["r"]
        SdkPath.from_path).2.2.2.2.2.2.1
        ["MacOSX12.sdk", "junk", "MacOSX13.sdk"] (by decide) (by decide))
      (by decide)
  · exact (enumeration_absence_and_skip fsSdksBoom ["d"] ["r"]
      fromDirHardFail).2.2.2.2.2.2.2 ["MacOSX12.sdk"] "boom" [] .io
      (by decide) (by decide) (by decide) (by decide)

end AppleSdk

namespace AppleSdk

/-! ## Helper lemmas: lexicographic orders and stable sorting -/

theorem listCharLe_total : ∀ (a b : List Char),
    listCharLe a b = true ∨ listCharLe b a = true := by
  intro a
  induction a with
  | nil => intro b; left; rfl
  | cons x xs ih =>
    intro b
    cases b with
    | nil => right; rfl
    | cons y ys =>
      unfold listCharLe
      by_cases hxy : x = y
      · subst hxy
        rw [if_pos rfl, if_pos rfl]
        exact ih ys
      · rw [if_neg hxy, if_neg (fun h => hxy h.symm)]
        rcases lt_or_gt_of_ne hxy with h | h
        · left; exact decide_eq_true h
        · right; exact decide_eq_true h

theorem listCharLe_trans : ∀ (a b c : List Char),
    listCharLe a b = true → listCharLe b c = true →
      listCharLe a c = true := by
  intro a
  induction a with
  | nil => intro b c hab hbc; rfl
  | cons x xs ih =>
    intro b c hab hbc
    cases b with
    | nil => simp [listCharLe] at hab
    | cons y ys =>
      cases c with
      | nil => simp [listCharLe] at hbc
      | cons z zs =>
        unfold listCharLe at hab hbc ⊢
        by_cases hxy : x = y
        · subst hxy
          rw [if_pos rfl] at hab
          by_cases hxz : x = z
          · subst hxz
            rw [if_pos rfl] at hbc ⊢
            exact ih ys zs hab hbc
          · rw [if_neg hxz] at hbc ⊢
            exact hbc
        · rw [if_neg hxy] at hab
          have hlt : x < y := of_decide_eq_true hab
          by_cases hyz : y = z
          · subst hyz
            rw [if_neg hxy]
            exact hab
          · rw [if_neg hyz] at hbc
            have hlt2 : y < z := of_decide_eq_true hbc
            have hxz : x < z := lt_trans hlt hlt2
            rw [if_neg (ne_of_lt hxz)]
            exact decide_eq_true hxz

theorem listCharLe_antisymm : ∀ (a b : List Char),
    listCharLe a b = true → listCharLe b a = true → a = b := by
  intro a
  induction a with
  | nil =>
    intro b hab hba
    cases b with
    | nil => rfl
    | cons y ys => simp [listCharLe] at hba
  | cons x xs ih =>
    intro b hab hba
    cases b with
    | nil => simp [listCharLe] at hab
    | cons y ys =>
      unfold listCharLe at hab hba
      by_cases hxy : x = y
      · subst hxy
        rw [if_pos rfl] at hab hba
        rw [ih ys hab hba]
      · rw [if_neg hxy] at hab
        rw [if_neg (fun h => hxy h.symm)] at hba
        exact absurd (of_decide_eq_true hba)
          (lt_asymm (of_decide_eq_true hab))

theorem strLe_antisymm {a b : String} (hab : strLe a b = true)
    (hba : strLe b a = true) : a = b :=
  congrArg String.mk (listCharLe_antisymm _ _ hab hba)

theorem pathLe_total : ∀ (a b : Path),
    pathLe a b = true ∨ pathLe b a = true := by
  intro a
  induction a with
  | nil => intro b; left; rfl
  | cons x xs ih =>
    intro b
    cases b with
    | nil => right; rfl
    | cons y ys =>
      unfold pathLe
      by_cases hxy : x = y
      · subst hxy
        rw [if_pos rfl, if_pos rfl]
        exact ih ys
      · rw [if_neg hxy, if_neg (fun h => hxy h.symm)]
        exact listCharLe_total x.toList y.toList

theorem pathLe_trans : ∀ (a b c : Path),
    pathLe a b = true → pathLe b c = true → pathLe a c = true := by
  intro a
  induction a with
  | nil => intro b c hab hbc; rfl
  | cons x xs ih =>
    intro b c hab hbc
    cases b with
    | nil => simp [pathLe] at hab
    | cons y ys =>
      cases c with
      | nil => simp [pathLe] at hbc
      | cons z zs =>
        unfold pathLe at hab hbc ⊢
        by_cases hxy : x = y
        · subst hxy
          rw [if_pos rfl] at hab
          by_cases hxz : x = z
          · subst hxz
            rw [if_pos rfl] at hbc ⊢
            exact ih ys zs hab hbc
          · rw [if_neg hxz] at hbc ⊢
            exact hbc
        · rw [if_neg hxy] at hab
          by_cases hyz : y = z
          · subst hyz
            rw [if_neg hxy]
            exact hab
          · rw [if_neg hyz] at hbc
            have hxz : ¬ (x = z) := by
              intro he
              subst he
              exact hxy (strLe_antisymm hab hbc)
            rw [if_neg hxz]
            exact listCharLe_trans _ _ _ hab hbc

theorem xcodeLe_total (a b : Path) :
    xcodeLe a b = true ∨ xcodeLe b a = true := by
  unfold xcodeLe
  by_cases ha : isXcodeApp a = true
  · left; rw [if_pos ha]
  · by_cases hb : isXcodeApp b = true
    · right; rw [if_pos hb]
    · rw [if_neg ha, if_neg hb, if_neg hb, if_neg ha]
      exact pathLe_total a b

theorem xcodeLe_trans (a b c : Path) (hab : xcodeLe a b = true)
    (hbc : xcodeLe b c = true) : xcodeLe a c = true := by
  unfold xcodeLe at hab hbc ⊢
  by_cases ha : isXcodeApp a = true
  · rw [if_pos ha]
  · rw [if_neg ha] at hab ⊢
    by_cases hb : isXcodeApp b = true
    · rw [if_pos hb] at hab
      cases hab
    · rw [if_neg hb] at hab
      rw [if_neg hb] at hbc
      by_cases hc : isXcodeApp c = true
      · rw [if_pos hc] at hbc
        cases hbc
      · rw [if_neg hc] at hbc ⊢
        exact pathLe_trans a b c hab hbc

theorem insertLe_perm (le : α → α → Bool) (x : α) (l : List α) :
    (insertLe le x l).Perm (x :: l) := by
  induction l with
  | nil => exact List.Perm.refl _
  | cons y ys ih =>
    unfold insertLe
    by_cases h : le x y = true
    · rw [if_pos h]
    · rw [if_neg h]
      exact (List.Perm.cons y ih).trans (List.Perm.swap x y ys)

theorem sortLe_perm (le : α → α → Bool) (l : List α) :
    (sortLe le l).Perm l := by
  induction l with
  | nil => exact List.Perm.refl _
  | cons x xs ih =>
    exact (insertLe_perm le x (sortLe le xs)).trans (List.Perm.cons x ih)

theorem insertLe_sorted (le : α → α → Bool)
    (htrans : ∀ a b c, le a b = true → le b c = true → le a c = true)
    (htotal : ∀ a b, le a b = true ∨ le b a = true) (x : α) (l : List α)
    (hl : l.Pairwise (fun a b => le a b = true)) :
    (insertLe le x l).Pairwise (fun a b => le a b = true) := by
  induction l with
  | nil => simp [insertLe]
  | cons y ys ih =>
    rcases List.pairwise_cons.mp hl with ⟨hy, hys⟩
    unfold insertLe
    by_cases h : le x y = true
    · rw [if_pos h]
      refine List.pairwise_cons.mpr ⟨?_, hl⟩
      intro z hz
      rcases List.mem_cons.mp hz with rfl | hz2
      · exact h
      · exact htrans x y z h (hy z hz2)
    · rw [if_neg h]
      have hyx : le y x = true := (htotal x y).resolve_left h
      refine List.pairwise_cons.mpr ⟨?_, ih hys⟩
      intro z hz
      have hz2 := (insertLe_perm le x ys).mem_iff.mp hz
      rcases List.mem_cons.mp hz2 with rfl | hz3
      · exact hyx
      · exact hy z hz3

theorem sortLe_sorted (le : α → α → Bool)
    (htrans : ∀ a b c, le a b = true → le b c = true → le a c = true)
    (htotal : ∀ a b, le a b = true ∨ le b a = true) (l : List α) :
    (sortLe le l).Pairwise (fun a b => le a b = true) := by
  induction l with
  | nil => exact List.Pairwise.nil
  | cons x xs ih => exact insertLe_sorted le htrans htotal x (sortLe le xs) ih

end AppleSdk

namespace AppleSdk

theorem collectXcodeApps_names (base : Path) (names : List String) :
    collectXcodeApps base (names.map DirEntry.name) =
      .ok ((names.filter matchesXcodeApp).map (fun n => base ++ [n])) := by
  induction names with
  | nil => rfl
  | cons n ns ih =>
    rw [List.map_cons]
    unfold collectXcodeApps
    rw [ih]
    by_cases hm : matchesXcodeApp n = true
    · simp [hm, List.filter_cons, Except.map]
    · simp [hm, List.filter_cons, Except.map]

theorem xcodeLe_imp_xcodeOrder {a b : Path} (h : xcodeLe a b = true) :
    xcodeOrder a b := by
  unfold xcodeLe at h
  by_cases ha : isXcodeApp a = true
  · exact Or.inl ha
  · rw [if_neg ha] at h
    by_cases hb : isXcodeApp b = true
    · rw [if_pos hb] at h
      cases h
    · rw [if_neg hb] at h
      exact Or.inr ⟨Bool.eq_false_iff.mpr hb, h⟩

/-- C9: find_xcode_apps returns exactly the Xcode*.app entries of the
listing (a permutation of the matches, as paths under the applications
directory), ordered so that the entry named exactly Xcode.app precedes
every other entry and any two other entries are in lexicographic
order. -/
theorem find_xcode_apps_sorted (fs : FileSystem) (dir : Path)
    (names : List String) (l : List Path)
    (h : fs.readDir dir = .ok (names.map DirEntry.name))
    (hl : find_xcode_apps fs dir = .ok l) :
    l.Perm ((names.filter matchesXcodeApp).map (fun n => dir ++ [n])) ∧
      List.Sorted xcodeOrder l := by
  have hfind : find_xcode_apps fs dir =
      .ok (sortLe xcodeLe
        ((names.filter matchesXcodeApp).map (fun n => dir ++ [n]))) := by
    unfold find_xcode_apps
    simp only [h, collectXcodeApps_names, Except.map]
  rw [hfind] at hl
  injection hl with hl2
  subst hl2
  constructor
  · exact sortLe_perm _ _
  · exact List.Pairwise.imp (fun hab => xcodeLe_imp_xcodeOrder hab)
      (sortLe_sorted xcodeLe xcodeLe_trans xcodeLe_total _)

/-- Witness for C9: a listing with XcodeBeta.app, Xcode.app, Xcode-rc1.app
yields Xcode.app first and the remaining two lexicographically. -/
theorem find_xcode_apps_sorted_witness :
    find_xcode_apps fsApps ["Applications"] =
      .ok [["Applications", "Xcode.app"], ["Applications", "Xcode-rc1.app"],
        ["Applications", "XcodeBeta.app"]] ∧
      ([["Applications", "Xcode.app"], ["Applications", "Xcode-rc1.app"],
          ["Applications", "XcodeBeta.app"]] : List Path).Perm
        ((["XcodeBeta.app", "Xcode.app", "Xcode-rc1.app"].filter
          matchesXcodeApp).map (fun n => ["Applications"] ++ [n])) ∧
      List.Sorted xcodeOrder
        [["Applications", "Xcode.app"], ["Applications", "Xcode-rc1.app"],
          ["Applications", "XcodeBeta.app"]] := by
  refine ⟨by decide, ?_⟩
  exact find_xcode_apps_sorted fsApps ["Applications"]
    ["XcodeBeta.app", "Xcode.app", "Xcode-rc1.app"]
    [["Applications", "Xcode.app"], ["Applications", "Xcode-rc1.app"],
      ["Applications", "XcodeBeta.app"]] (by decide) (by decide)

end AppleSdk
